import Mathlib

/-
Shallow embedding of clipboard-tray.py (clipboard history tray app).

Modelling conventions:
- Python dicts for history items become a structure with Option fields;
  a missing dict key is represented by none, matching item.get(key).
- Timestamps are Int seconds; time.time() floats are modelled as integers
  (the claims only compare differences against whole-day thresholds).
- The settings dict is an association list String -> SVal preserving
  insertion order, so that the Python merge expression, which is
  ordered, can be embedded faithfully.
- Disk state relevant to the engine is the image directory, a list of
  pairs of filename and file size. The history JSON file size is passed
  separately as dbSize, since it stays constant during prune_history
  (save_history only runs at the end).
- The clipboard holds either text (pyperclip) or CF_DIB bytes.
- Fallible OS calls (os.remove swallowing OSError) are modelled as
  succeeding; the claims under study do not depend on their failure.
-/

-- === Settings (clipboard-tray.py lines 30-43) ===

inductive SVal where
  | num (n : Int)
  | sbool (b : Bool)
  | str (s : String)
  deriving DecidableEq

/-- Lookup of a key in an association-list dict (first occurrence). -/
def lookupKey (m : List (String × SVal)) (k : String) : Option SVal :=
  (m.find? (fun p => p.1 = k)).map (fun p => p.2)

/-- Python dict merge, as in the source expression at line 35:
keys of a in order, values overridden by b where present, then the keys
of b that are not in a, in order. -/
def dictMerge (a b : List (String × SVal)) : List (String × SVal) :=
  a.map (fun p => (p.1, (lookupKey b p.1).getD p.2)) ++
  b.filter (fun p => (lookupKey a p.1).isNone)

def DEFAULT_SETTINGS : List (String × SVal) :=
  [( "max_age_days", SVal.num 7), ( "max_size_gb", SVal.num 10),
   ( "max_visible", SVal.num 8), ( "regex_search", SVal.sbool false)]

/-- load_settings, lines 32-37: a missing or corrupt file (none) yields
the defaults; otherwise the Python merge of defaults and file content. -/
def load_settings (file : Option (List (String × SVal))) : List (String × SVal) :=
  match file with
  | some m => dictMerge DEFAULT_SETTINGS m
  | none => DEFAULT_SETTINGS

/-- save_settings_file, lines 39-41: json.dump writes the settings dict
as it stands, so the persisted content is the dict itself. -/
def save_settings_file (s : List (String × SVal)) : List (String × SVal) := s

-- === History items (dicts created at lines 189 and 206) ===

structure Item where
  type : Option String
  text : Option String
  image : Option String
  ts : Option Int
  width : Option Int
  height : Option Int
  pinned : Option Bool
  deriving DecidableEq

/-- Python truthiness of item.get, where the key holds a Bool. -/
def truthy (b : Option Bool) : Bool := b.getD false

/-- The test item.get of type equals the string image. -/
def isImage (it : Item) : Bool := it.type = some "image"

-- === Clipboard poller upsert (lines 167-211) ===

/-- The dict inserted by the text branch at line 206. -/
def mkTextItem (current : String) (now : Int) : Item :=
  { type := some "text", text := some current, image := none,
    ts := some now, width := none, height := none, pinned := none }

/-- The dict inserted by the image branch at line 189. -/
def mkImageItem (fname : String) (now w ht : Int) : Item :=
  { type := some "image", text := none, image := some fname,
    ts := some now, width := some w, height := some ht, pinned := none }

/-- The guard at line 199: history nonempty and the front item matches
the observed text. -/
def frontTextMatches (current : String) (h : List Item) : Bool :=
  match h with
  | [] => false
  | front :: _ => front.text = some current

/-- The loop at lines 202-205: pop the first item whose text key equals
the observed text. -/
def removeFirstText (current : String) : List Item → List Item
  | [] => []
  | it :: rest =>
    if it.text = some current then rest
    else it :: removeFirstText current rest

/-- The text branch of poll_clipboard, lines 198-206 (structural history
mutation before prune_history and save_history run). -/
def textUpsert (current : String) (now : Int) (h : List Item) : List Item :=
  if frontTextMatches current h then h
  else mkTextItem current now :: removeFirstText current h

/-- The dedup test at line 186. -/
def matchesImage (fname : String) (it : Item) : Bool :=
  isImage it && it.image = some fname

/-- The guard at line 184: front item is an image with this filename. -/
def frontImageMatches (fname : String) (h : List Item) : Bool :=
  match h with
  | [] => false
  | front :: _ => matchesImage fname front

/-- The loop at lines 185-188. -/
def removeFirstImage (fname : String) : List Item → List Item
  | [] => []
  | it :: rest =>
    if matchesImage fname it then rest
    else it :: removeFirstImage fname rest

/-- The image branch of poll_clipboard, lines 182-189. -/
def imageUpsert (fname : String) (now w ht : Int) (h : List Item) : List Item :=
  if frontImageMatches fname h then h
  else mkImageItem fname now w ht :: removeFirstImage fname h

-- === Image blob store and eviction (lines 58-105, 67-92) ===

/-- The image directory: filenames with file sizes. -/
abbrev Files := List (String × Nat)

/-- The reference count computed at line 99 by scanning history. -/
def refCount (h : List Item) (fname : String) : Nat :=
  h.countP (fun it => it.image = some fname)

/-- remove_item_image, lines 94-105: deletes the blob file of an image
item when at most one history entry (the item itself, still present in
h) references it. -/
def remove_item_image (it : Item) (h : List Item) (files : Files) : Files :=
  if isImage it then
    let fname := it.image.getD ""
    if refCount h fname ≤ 1 then files.filter (fun f => f.1 != fname)
    else files
  else files

/-- get_storage_bytes, lines 58-65: history JSON size plus all image
file sizes. -/
def storageBytes (dbSize : Nat) (files : Files) : Nat :=
  dbSize + (files.map (fun f => f.2)).sum

/-- The age-prune loop at lines 75-80, walking i from length - 1 down to
0; popping at index i never shifts the not-yet-visited smaller indices. -/
def agePassAux (now maxAge : Int) : Nat → List Item → Files → List Item × Files
  | 0, h, files => (h, files)
  | i + 1, h, files =>
    match h.get? i with
    | some it =>
      if !truthy it.pinned && decide (now - it.ts.getD 0 > maxAge) then
        agePassAux now maxAge i (h.eraseIdx i) (remove_item_image it h files)
      else agePassAux now maxAge i h files
    | none => agePassAux now maxAge i h files

def agePass (now maxAge : Int) (h : List Item) (files : Files) : List Item × Files :=
  agePassAux now maxAge h.length h files

/-- The generator expression at line 84: the largest index whose item is
not pinned, or none. -/
def lastUnpinnedIdx : List Item → Option Nat
  | [] => none
  | it :: rest =>
    match lastUnpinnedIdx rest with
    | some j => some (j + 1)
    | none => if truthy it.pinned then none else some 0

/-- The size-prune while loop at lines 83-89, with explicit fuel; the
theorem for fuel sufficiency shows fuel equal to the history length is
enough, which is the termination bound of the Python loop. The db file
size is constant during the loop since save_history runs only at the
end of prune_history. -/
def sizePassFuel (maxBytes : Int) (dbSize : Nat) :
    Nat → List Item → Files → List Item × Files
  | 0, h, files => (h, files)
  | fuel + 1, h, files =>
    if decide ((storageBytes dbSize files : Int) > maxBytes) then
      match lastUnpinnedIdx h with
      | none => (h, files)
      | some idx =>
        match h.get? idx with
        | some it =>
          sizePassFuel maxBytes dbSize fuel (h.eraseIdx idx)
            (remove_item_image it h files)
        | none => (h, files)
    else (h, files)

def sizePass (maxBytes : Int) (dbSize : Nat) (h : List Item) (files : Files) :
    List Item × Files :=
  sizePassFuel maxBytes dbSize h.length h files

/-- prune_history, lines 67-92: age pass then size pass. The limits are
read from the settings dict; they are passed here as the numbers the
dict holds. -/
def prune_history (now maxAgeDays maxSizeGb : Int) (dbSize : Nat)
    (h : List Item) (files : Files) : List Item × Files :=
  let maxAge := maxAgeDays * 86400
  let maxBytes := maxSizeGb * 1024 ^ 3
  let p := agePass now maxAge h files
  sizePass maxBytes dbSize p.1 p.2

-- === Clipboard and paste injection (lines 144-163, 347-361) ===

inductive Clipboard where
  | ctext (s : String)
  | cdib (bytes : List Nat)
  deriving DecidableEq

/-- copy_image_to_clipboard, lines 144-163: the clipboard is emptied and
set to the DIB, which is the BMP encoding minus its 14-byte file
header. The BMP bytes of the stored blob are supplied by encodeBmp. -/
def copy_image_to_clipboard (bmpBytes : List Nat) : Clipboard :=
  Clipboard.cdib (List.drop 14 bmpBytes)

/-- paste_to_prev_app, lines 347-361, restricted to its effect on the
clipboard: an image item with an existing blob file replaces the
clipboard with its DIB; a missing blob file leaves the clipboard
untouched; any other item replaces the clipboard with its text. No
snapshot of the prior clipboard is taken and nothing is restored. -/
def paste_to_prev_app (encodeBmp : String → List Nat)
    (fileExists : String → Bool) (it : Item) (clip : Clipboard) : Clipboard :=
  if isImage it then
    let fname := it.image.getD ""
    if fileExists fname then copy_image_to_clipboard (encodeBmp fname)
    else clip
  else Clipboard.ctext (it.text.getD "")

-- === HTTP command surface (Handler.do_POST, lines 244-272) ===

/-- The body field index as json.loads yields it: an int or some other
JSON value; isinstance at lines 254 and 266 accepts only ints. -/
inductive JIdx where
  | int (i : Int)
  | nonint
  deriving DecidableEq

inductive Resp where
  | ok
  | notFound
  deriving DecidableEq

structure Request where
  path : String
  index : Option JIdx
  text : Option String
  deriving DecidableEq

structure ServerState where
  history : List Item
  files : Files
  clip : Clipboard
  deriving DecidableEq

/-- The guard isinstance(idx, int) and 0 <= idx < len(history). -/
def validIdx (idx : Option JIdx) (len : Nat) : Option Nat :=
  match idx with
  | some (JIdx.int i) => if 0 ≤ i ∧ i < (len : Int) then some i.toNat else none
  | _ => none

/-- The pin mutation at line 267 (and line 756): negate the truthiness
of the pinned key, writing an explicit Bool back into the dict. -/
def pinToggleAt (i : Nat) (h : List Item) : List Item :=
  match h.get? i with
  | some it => h.set i { it with pinned := some (!truthy it.pinned) }
  | none => h

/-- Handler.do_POST, lines 244-272. The image directory is never
touched by any route; save_history effects on the db file size are not
part of this state. -/
def do_POST (req : Request) (st : ServerState) : ServerState × Resp :=
  if req.path = "/api/copy" then
    ({ st with clip := Clipboard.ctext (req.text.getD "") }, Resp.ok)
  else if req.path = "/api/delete" then
    match validIdx req.index st.history.length with
    | some i => ({ st with history := st.history.eraseIdx i }, Resp.ok)
    | none => (st, Resp.ok)
  else if req.path = "/api/delete-all" then
    ({ st with history := st.history.filter (fun it => truthy it.pinned) }, Resp.ok)
  else if req.path = "/api/pin" then
    match validIdx req.index st.history.length with
    | some i => ({ st with history := pinToggleAt i st.history }, Resp.ok)
    | none => (st, Resp.ok)
  else (st, Resp.notFound)

-- === Tk popup mutations (lines 747-765) ===

/-- _do_pin, lines 753-758. -/
def _do_pin (idx : Int) (h : List Item) : List Item :=
  if 0 ≤ idx ∧ idx < (h.length : Int) then pinToggleAt idx.toNat h else h

/-- _do_delete, lines 760-765. -/
def _do_delete (idx : Int) (h : List Item) : List Item :=
  if 0 ≤ idx ∧ idx < (h.length : Int) then h.eraseIdx idx.toNat else h

/-- _do_clear_all, lines 747-751 (same filter as the delete-all route). -/
def _do_clear_all (h : List Item) : List Item :=
  h.filter (fun it => truthy it.pinned)

-- === Derived predicates used by the claims ===

/-- The text dedup key: the text field of any item (image items carry
none). -/
def textKey (it : Item) : Option String := it.text

/-- The image dedup key: the image filename of image items. -/
def imageKey (it : Item) : Option String :=
  if isImage it then it.image else none

/-- No two items share a text and no two image items share a filename. -/
def dedupInv (h : List Item) : Prop :=
  (h.filterMap textKey).Nodup ∧ (h.filterMap imageKey).Nodup

/-- Items as the code itself creates them: exactly the image-typed ones
carry an image filename. -/
def wfItems (h : List Item) : Prop :=
  ∀ it ∈ h, (isImage it = true ↔ it.image.isSome = true)

/-- A blob file is on disk exactly when at least one history item
references its filename. -/
def blobInv (h : List Item) (files : Files) : Prop :=
  (∀ f ∈ files, ∃ it ∈ h, it.image = some f.1) ∧
  (∀ it ∈ h, it.image.isSome = true → ∃ f ∈ files, it.image = some f.1)

-- === Helper lemmas ===

theorem set_get_eq (h : List Item) (i : Nat) (it : Item)
    (hg : h.get? i = some it) : h.set i it = h := by
  induction h generalizing i with
  | nil => simp at hg
  | cons a t ih =>
    cases i with
    | zero =>
      simp only [List.get?] at hg
      injection hg with hg
      simp [List.set, hg]
    | succ n =>
      simp only [List.get?] at hg
      simp [List.set, ih n hg]

theorem pinToggleAt_twice (h : List Item) (i : Nat) (it : Item)
    (hg : h.get? i = some it) :
    pinToggleAt i (pinToggleAt i h) =
      h.set i { it with pinned := some (truthy it.pinned) } := by
  have h1 : pinToggleAt i h =
      h.set i { it with pinned := some (!truthy it.pinned) } := by
    unfold pinToggleAt
    rw [hg]
  have hg2 : (h.set i { it with pinned := some (!truthy it.pinned) }).get? i =
      some { it with pinned := some (!truthy it.pinned) } := by
    rw [List.get?_set_eq, hg]
    rfl
  rw [h1]
  unfold pinToggleAt
  rw [hg2]
  dsimp only
  rw [List.set_set]
  have hb : truthy (some (!truthy it.pinned)) = !truthy it.pinned := rfl
  simp [hb]

-- === C10 ===

/-- C10 counterexample: the history item created by the watcher has no
pinned key; toggling its pin twice leaves an explicit pinned false key
behind, so the history is not restored to exactly its prior state. -/
theorem c10_counterexample :
    _do_pin 0 (_do_pin 0 [mkTextItem "a" 0]) ≠ [mkTextItem "a" 0] := by
  decide

/-- C10 (amended): for every valid index, a double pin toggle rewrites
only the pinned key of the addressed item, setting it to an explicit
Bool equal to its previous truthiness; in particular, when the item
already carried an explicit pinned flag, the history is restored to
exactly its prior state, and no other field or item is ever touched. -/
theorem c10_double_toggle (h : List Item) (i : Nat) (it : Item)
    (hg : h.get? i = some it) :
    _do_pin (i : Int) (_do_pin (i : Int) h) =
      h.set i { it with pinned := some (truthy it.pinned) } ∧
    (∀ b, it.pinned = some b → _do_pin (i : Int) (_do_pin (i : Int) h) = h) := by
  have hi : i < h.length := by
    rcases List.get?_eq_some.mp hg with ⟨hlt, _⟩
    exact hlt
  have hcond : 0 ≤ (i : Int) ∧ (i : Int) < (h.length : Int) :=
    ⟨Int.natCast_nonneg i, by exact_mod_cast hi⟩
  have hlen : (pinToggleAt i h).length = h.length := by
    unfold pinToggleAt
    rw [hg, List.length_set]
  have hmain : _do_pin (i : Int) (_do_pin (i : Int) h) =
      h.set i { it with pinned := some (truthy it.pinned) } := by
    unfold _do_pin
    rw [if_pos hcond, Int.toNat_natCast]
    rw [if_pos (by rw [hlen]; exact hcond)]
    exact pinToggleAt_twice h i it hg
  refine ⟨hmain, ?_⟩
  intro b hb
  rw [hmain]
  have hit : { it with pinned := some (truthy it.pinned) } = it := by
    cases it
    simp_all [truthy]
  rw [hit]
  exact set_get_eq h i it hg

/-- C10 witness: a concrete double toggle on an item with an explicit
pinned flag restores the history exactly. -/
theorem c10_witness :
    _do_pin 0 (_do_pin 0 [{ mkTextItem "a" 0 with pinned := some true }]) =
      [{ mkTextItem "a" 0 with pinned := some true }] :=
  (c10_double_toggle [{ mkTextItem "a" 0 with pinned := some true }] 0
    { mkTextItem "a" 0 with pinned := some true } rfl).2 true rfl

-- === C1 ===

/-- C1 counterexample: pasting the text item hello while the clipboard
holds the text secret leaves the clipboard holding hello, not the prior
state; paste_to_prev_app takes no snapshot and restores nothing. -/
theorem c1_counterexample :
    paste_to_prev_app (fun _ => []) (fun _ => false) (mkTextItem "hello" 0)
      (Clipboard.ctext "secret") = Clipboard.ctext "hello" ∧
    Clipboard.ctext "hello" ≠ Clipboard.ctext "secret" := by
  refine ⟨rfl, by decide⟩

/-- C1 (amended): paste_to_prev_app overwrites the clipboard with the
payload of the pasted item and performs no snapshot or restore: a text
item always leaves its text on the clipboard, an image item with an
existing blob leaves its DIB bytes, independently of the prior
clipboard state, and an image item with a missing blob file leaves the
clipboard unchanged. -/
theorem c1_paste_overwrites_clipboard (encodeBmp : String → List Nat)
    (fileExists : String → Bool) (it : Item) (clip clip' : Clipboard) :
    (isImage it = false →
      paste_to_prev_app encodeBmp fileExists it clip =
        Clipboard.ctext (it.text.getD "")) ∧
    (isImage it = true → fileExists (it.image.getD "") = true →
      paste_to_prev_app encodeBmp fileExists it clip =
        Clipboard.cdib (List.drop 14 (encodeBmp (it.image.getD ""))) ∧
      paste_to_prev_app encodeBmp fileExists it clip =
        paste_to_prev_app encodeBmp fileExists it clip') ∧
    (isImage it = true → fileExists (it.image.getD "") = false →
      paste_to_prev_app encodeBmp fileExists it clip = clip) := by
  refine ⟨?_, ?_, ?_⟩
  · intro h1
    simp [paste_to_prev_app, h1]
  · intro h1 h2
    constructor <;> simp [paste_to_prev_app, copy_image_to_clipboard, h1, h2]
  · intro h1 h2
    simp [paste_to_prev_app, h1, h2]

/-- C1 witness: the amended theorem evaluated on a concrete text item. -/
theorem c1_witness :
    paste_to_prev_app (fun _ => []) (fun _ => true) (mkTextItem "a" 0)
      (Clipboard.ctext "s") = Clipboard.ctext "a" :=
  (c1_paste_overwrites_clipboard (fun _ => []) (fun _ => true) (mkTextItem "a" 0)
    (Clipboard.ctext "s") (Clipboard.ctext "s")).1 (by decide)

-- === C4 ===

/-- C4 counterexample: the command surface has no slot-assign operation
at all; replaying the claimed scenario (assign slot 3 to index 0, then
to index 1) through the only command dispatcher yields a not-found
response twice and leaves both items exactly as they were, so index 1
never acquires a numbered slot, and no Slot state even exists in the
pin field, which is a plain optional Bool. -/
theorem c4_counterexample :
    (do_POST { path := "/api/assign", index := some (JIdx.int 0), text := none }
      { history := [mkTextItem "a" 0, mkTextItem "b" 0], files := [],
        clip := Clipboard.ctext "" }).2 = Resp.notFound ∧
    (do_POST { path := "/api/assign", index := some (JIdx.int 1), text := none }
      (do_POST { path := "/api/assign", index := some (JIdx.int 0), text := none }
        { history := [mkTextItem "a" 0, mkTextItem "b" 0], files := [],
          clip := Clipboard.ctext "" }).1).1 =
      { history := [mkTextItem "a" 0, mkTextItem "b" 0], files := [],
        clip := Clipboard.ctext "" } := by
  refine ⟨rfl, rfl⟩

/-- C4 (amended): the code implements no numbered slots: pin state is a
single optional boolean and the command dispatcher recognizes only the
copy, delete, delete-all and pin routes; any other route, a slot-assign
request included, returns not-found and leaves the state unchanged. -/
theorem c4_no_slot_route (st : ServerState) (req : Request)
    (hp : req.path ∉ ["/api/copy", "/api/delete", "/api/delete-all", "/api/pin"]) :
    do_POST req st = (st, Resp.notFound) := by
  simp only [List.mem_cons, List.not_mem_nil, or_false, not_or] at hp
  obtain ⟨h1, h2, h3, h4⟩ := hp
  simp [do_POST, h1, h2, h3, h4]

/-- C4 witness: a concrete unknown route is a not-found no-op. -/
theorem c4_witness :
    do_POST { path := "/api/assign", index := none, text := none }
      { history := [], files := [], clip := Clipboard.ctext "" } =
      ({ history := [], files := [], clip := Clipboard.ctext "" }, Resp.notFound) :=
  c4_no_slot_route { history := [], files := [], clip := Clipboard.ctext "" }
    { path := "/api/assign", index := none, text := none } (by decide)

-- === C7 ===

/-- C7: a delete or pin request whose index is absent, not an integer,
or out of range leaves the server state unchanged and still returns the
uniform success acknowledgement. -/
theorem c7_invalid_index_noop (st : ServerState) (req : Request)
    (hroute : req.path = "/api/delete" ∨ req.path = "/api/pin")
    (hbad : req.index = none ∨ req.index = some JIdx.nonint ∨
      ∃ i, req.index = some (JIdx.int i) ∧
        (i < 0 ∨ (st.history.length : Int) ≤ i)) :
    do_POST req st = (st, Resp.ok) := by
  have hv : validIdx req.index st.history.length = none := by
    rcases hbad with h | h | ⟨i, hi, hrange⟩
    · rw [h]; rfl
    · rw [h]; rfl
    · have hneg : ¬ (0 ≤ i ∧ i < (st.history.length : Int)) := by omega
      rw [hi]
      simp only [validIdx, if_neg hneg]
  rcases hroute with h | h <;> simp [do_POST, h, hv]

/-- C7 witness: deleting at index 5 of a one-item history is a success
no-op. -/
theorem c7_witness :
    do_POST { path := "/api/delete", index := some (JIdx.int 5), text := none }
      { history := [mkTextItem "a" 0], files := [], clip := Clipboard.ctext "" } =
      ({ history := [mkTextItem "a" 0], files := [], clip := Clipboard.ctext "" },
        Resp.ok) :=
  c7_invalid_index_noop
    { history := [mkTextItem "a" 0], files := [], clip := Clipboard.ctext "" }
    { path := "/api/delete", index := some (JIdx.int 5), text := none }
    (Or.inl rfl) (Or.inr (Or.inr ⟨5, rfl, by decide⟩))

-- === C2 ===

theorem removeFirstText_length (current : String) (h : List Item)
    (hex : ∃ it ∈ h, it.text = some current) :
    (removeFirstText current h).length + 1 = h.length := by
  induction h with
  | nil => simp at hex
  | cons a t ih =>
    by_cases ha : a.text = some current
    · simp [removeFirstText, ha]
    · have hex' : ∃ it ∈ t, it.text = some current := by
        rcases hex with ⟨it, hm, htxt⟩
        rcases List.mem_cons.mp hm with rfl | hm'
        · exact absurd htxt ha
        · exact ⟨it, hm', htxt⟩
      simp only [removeFirstText, if_neg ha, List.length_cons]
      rw [← ih hex']

/-- C2 counterexample: re-observing the text of a pinned non-front item
replaces it by a fresh front item whose pinned key is absent, so the
pin is not carried forward; and re-observing the text of the front item
leaves the history entirely unchanged, so createdAt is not refreshed. -/
theorem c2_counterexample :
    (textUpsert "hello" 100
      [mkTextItem "world" 1, { mkTextItem "hello" 0 with pinned := some true }]).head?
      = some (mkTextItem "hello" 100) ∧
    (mkTextItem "hello" 100).pinned = none ∧
    textUpsert "a" 100 [mkTextItem "a" 0] = [mkTextItem "a" 0] := by
  refine ⟨by decide, rfl, by decide⟩

theorem removeFirstImage_length (fname : String) (h : List Item)
    (hex : ∃ it ∈ h, matchesImage fname it = true) :
    (removeFirstImage fname h).length + 1 = h.length := by
  induction h with
  | nil => simp at hex
  | cons a t ih =>
    by_cases ha : matchesImage fname a = true
    · simp [removeFirstImage, ha]
    · have hex' : ∃ it ∈ t, matchesImage fname it = true := by
        rcases hex with ⟨it, hm, hmi⟩
        rcases List.mem_cons.mp hm with rfl | hm'
        · exact absurd hmi ha
        · exact ⟨it, hm', hmi⟩
      simp only [removeFirstImage, if_neg ha, List.length_cons]
      rw [← ih hex']

/-- C2 (amended): for a text observation as for an image observation,
when the new value matches the front item the history is left
completely unchanged (createdAt included); otherwise the first item
whose text (or image filename) matches is removed and a fresh item
with the observation time and no pin key is inserted at the front, so
a matching history keeps its length but the pin of the matched item is
dropped rather than carried forward. -/
theorem c2_upsert_behavior (current fname : String) (now w ht : Int)
    (h : List Item) :
    (frontTextMatches current h = true → textUpsert current now h = h) ∧
    (frontTextMatches current h = false →
      textUpsert current now h =
        mkTextItem current now :: removeFirstText current h) ∧
    (frontTextMatches current h = false → (∃ it ∈ h, it.text = some current) →
      (textUpsert current now h).length = h.length) ∧
    (frontImageMatches fname h = true → imageUpsert fname now w ht h = h) ∧
    (frontImageMatches fname h = false →
      imageUpsert fname now w ht h =
        mkImageItem fname now w ht :: removeFirstImage fname h) ∧
    (frontImageMatches fname h = false →
      (∃ it ∈ h, matchesImage fname it = true) →
      (imageUpsert fname now w ht h).length = h.length) := by
  refine ⟨?_, ?_, ?_, ?_, ?_, ?_⟩
  · intro hf
    simp [textUpsert, hf]
  · intro hf
    simp [textUpsert, hf]
  · intro hf hex
    simp only [textUpsert, hf, Bool.false_eq_true, if_false, List.length_cons]
    exact removeFirstText_length current h hex
  · intro hf
    simp [imageUpsert, hf]
  · intro hf
    simp [imageUpsert, hf]
  · intro hf hex
    simp only [imageUpsert, hf, Bool.false_eq_true, if_false, List.length_cons]
    exact removeFirstImage_length fname h hex

/-- C2 witness: the amended theorem on a concrete three-item history
holding both a matching text item and a matching image item, neither at
the front. -/
theorem c2_witness :
    textUpsert "hello" 5
      [mkTextItem "x" 0, mkTextItem "hello" 0, mkImageItem "img" 0 2 2] =
      mkTextItem "hello" 5 :: removeFirstText "hello"
        [mkTextItem "x" 0, mkTextItem "hello" 0, mkImageItem "img" 0 2 2] ∧
    (textUpsert "hello" 5
      [mkTextItem "x" 0, mkTextItem "hello" 0, mkImageItem "img" 0 2 2]).length
      = 3 ∧
    imageUpsert "img" 5 7 9
      [mkTextItem "x" 0, mkTextItem "hello" 0, mkImageItem "img" 0 2 2] =
      mkImageItem "img" 5 7 9 :: removeFirstImage "img"
        [mkTextItem "x" 0, mkTextItem "hello" 0, mkImageItem "img" 0 2 2] ∧
    (imageUpsert "img" 5 7 9
      [mkTextItem "x" 0, mkTextItem "hello" 0, mkImageItem "img" 0 2 2]).length
      = 3 :=
  ⟨(c2_upsert_behavior "hello" "img" 5 7 9
      [mkTextItem "x" 0, mkTextItem "hello" 0, mkImageItem "img" 0 2 2]).2.1
      (by decide),
   (c2_upsert_behavior "hello" "img" 5 7 9
      [mkTextItem "x" 0, mkTextItem "hello" 0, mkImageItem "img" 0 2 2]).2.2.1
      (by decide) ⟨mkTextItem "hello" 0, by decide, rfl⟩,
   (c2_upsert_behavior "hello" "img" 5 7 9
      [mkTextItem "x" 0, mkTextItem "hello" 0, mkImageItem "img" 0 2 2]).2.2.2.2.1
      (by decide),
   (c2_upsert_behavior "hello" "img" 5 7 9
      [mkTextItem "x" 0, mkTextItem "hello" 0, mkImageItem "img" 0 2 2]).2.2.2.2.2
      (by decide) ⟨mkImageItem "img" 0 2 2, by decide, by decide⟩⟩

-- === C8 ===

theorem lookupKey_cons (q : String × SVal) (t : List (String × SVal)) (k : String) :
    lookupKey (q :: t) k = if q.1 = k then some q.2 else lookupKey t k := by
  by_cases hq : q.1 = k
  · simp [lookupKey, List.find?, hq]
  · simp [lookupKey, List.find?, hq]

theorem lookupKey_map_override (f : String × SVal → SVal)
    (a : List (String × SVal)) (k : String) :
    lookupKey (a.map (fun p => (p.1, f p))) k =
      (a.find? (fun p => p.1 = k)).map (fun p => f p) := by
  induction a with
  | nil => rfl
  | cons p t ih =>
    by_cases hp : p.1 = k
    · simp [lookupKey, List.find?, hp]
    · simp only [List.map_cons]
      rw [lookupKey_cons]
      simp only [hp, if_false]
      rw [ih]
      simp [List.find?, hp]


theorem lookupKey_append (x y : List (String × SVal)) (k : String) :
    lookupKey (x ++ y) k = (lookupKey x k).or (lookupKey y k) := by
  unfold lookupKey
  rw [List.find?_append]
  cases List.find? (fun p => p.1 = k) x <;> simp

theorem lookupKey_filter_known (a b : List (String × SVal)) (k : String) :
    lookupKey (b.filter (fun p => (lookupKey a p.1).isNone)) k =
      if (lookupKey a k).isNone then lookupKey b k else none := by
  induction b with
  | nil =>
    cases hka : (lookupKey a k).isNone <;> simp [lookupKey, hka]
  | cons q t ih =>
    by_cases hq : q.1 = k
    · subst hq
      cases hka : (lookupKey a q.1).isNone with
      | true =>
        rw [List.filter_cons]
        simp only [hka, if_true]
        rw [lookupKey_cons, lookupKey_cons]
        simp [hka]
      | false =>
        rw [List.filter_cons]
        simp only [hka, Bool.false_eq_true, if_false]
        rw [ih]
        simp [hka]
    · rw [List.filter_cons]
      cases hkq : (lookupKey a q.1).isNone with
      | true =>
        simp only [hkq, if_true]
        rw [lookupKey_cons]
        simp only [hq, if_false]
        rw [ih, lookupKey_cons]
        simp [hq]
      | false =>
        simp only [hkq, Bool.false_eq_true, if_false]
        rw [ih, lookupKey_cons]
        simp [hq]

theorem lookupKey_dictMerge (a b : List (String × SVal)) (k : String) :
    lookupKey (dictMerge a b) k = (lookupKey b k).or (lookupKey a k) := by
  unfold dictMerge
  rw [lookupKey_append, lookupKey_filter_known,
    lookupKey_map_override (fun p => (lookupKey b p.1).getD p.2) a k]
  cases hfa : a.find? (fun p => p.1 = k) with
  | none =>
    have hak : lookupKey a k = none := by
      unfold lookupKey
      rw [hfa]
      rfl
    rw [hak]
    simp only [Option.map_none, Option.isNone_none, if_pos, Option.none_or]
    cases lookupKey b k <;> rfl
  | some p =>
    have hkp : p.1 = k := by simpa using List.find?_some hfa
    have hak : lookupKey a k = some p.2 := by
      unfold lookupKey
      rw [hfa]
      rfl
    rw [hak]
    cases hb : lookupKey b k with
    | none => simp [hb, hkp]
    | some v => simp [hb, hkp]

-- === C8 claim ===

/-- C8 counterexample: an unknown settings key written in the file
survives load and is written back verbatim by save, and the recognized
key set has a fourth member, max_visible; so the persisted settings are
not limited to maxAgeDays, maxSizeGb, regexSearch, and unknown keys are
not dropped on save. -/
theorem c8_counterexample :
    lookupKey (save_settings_file (load_settings (some [( "foo", SVal.num 1)])))
      "foo" = some (SVal.num 1) ∧
    lookupKey (load_settings none) "max_visible" = some (SVal.num 8) := by
  refine ⟨by decide, by decide⟩

/-- C8 (amended): the recognized settings keys are max_age_days,
max_size_gb, max_visible and regex_search; loading merges the stored
file over the defaults, so a key missing from the file gets its default
and a key present in the file, recognized or not, keeps its stored
value; saving writes the settings dict as it stands, so unknown keys
are retained, not dropped. -/
theorem c8_settings_behavior (m : List (String × SVal)) (k : String) :
    (lookupKey m k = none →
      lookupKey (load_settings (some m)) k = lookupKey DEFAULT_SETTINGS k) ∧
    (∀ v, lookupKey m k = some v →
      lookupKey (load_settings (some m)) k = some v) ∧
    save_settings_file (load_settings (some m)) = load_settings (some m) := by
  refine ⟨?_, ?_, rfl⟩
  · intro hm
    unfold load_settings
    rw [lookupKey_dictMerge, hm]
    rfl
  · intro v hm
    unfold load_settings
    rw [lookupKey_dictMerge, hm]
    rfl

/-- C8 witness: a stored recognized key wins over its default, shown by
the amended theorem at a concrete settings file. -/
theorem c8_witness :
    lookupKey (load_settings (some [( "max_age_days", SVal.num 3)]))
      "max_age_days" = some (SVal.num 3) :=
  (c8_settings_behavior [( "max_age_days", SVal.num 3)] "max_age_days").2.1
    (SVal.num 3) (by decide)

-- === Shared eviction helpers ===

theorem get?_some_lt (h : List Item) (i : Nat) (it : Item)
    (hg : h.get? i = some it) : i < h.length := by
  rcases List.get?_eq_some.mp hg with ⟨hlt, _⟩
  exact hlt

theorem lastUnpinnedIdx_spec (h : List Item) (idx : Nat)
    (hl : lastUnpinnedIdx h = some idx) :
    ∃ it, h.get? idx = some it ∧ truthy it.pinned = false := by
  induction h generalizing idx with
  | nil => simp [lastUnpinnedIdx] at hl
  | cons a t ih =>
    simp only [lastUnpinnedIdx] at hl
    cases hrec : lastUnpinnedIdx t with
    | some j =>
      rw [hrec] at hl
      injection hl with hl
      subst hl
      rcases ih j hrec with ⟨it, hg, hp⟩
      exact ⟨it, by simpa using hg, hp⟩
    | none =>
      rw [hrec] at hl
      cases hp : truthy a.pinned with
      | true => rw [hp] at hl; simp at hl
      | false =>
        rw [hp] at hl
        simp only [if_false] at hl
        injection hl with hl
        subst hl
        exact ⟨a, rfl, hp⟩

/-- C9: the size-prune loop needs at most one iteration per history
item: running sizePassFuel with any fuel at least the history length
gives the same result as running it with fuel exactly the history
length, because every iteration either exits or shortens the history by
one; prune_history uses exactly this bound, so the eviction operation
terminates. -/
theorem c9_size_pass_terminates (maxBytes : Int) (dbSize : Nat) :
    ∀ (fuel : Nat) (h : List Item) (files : Files), h.length ≤ fuel →
      sizePassFuel maxBytes dbSize fuel h files =
        sizePassFuel maxBytes dbSize h.length h files := by
  intro fuel
  induction fuel with
  | zero =>
    intro h files hle
    rw [Nat.le_zero.mp hle]
  | succ n ih =>
    intro h files hle
    cases hlen : h.length with
    | zero =>
      have hnil : h = [] := List.length_eq_zero.mp hlen
      subst hnil
      simp only [sizePassFuel, lastUnpinnedIdx]
      split <;> rfl
    | succ m =>
      simp only [sizePassFuel]
      split
      · cases hlu : lastUnpinnedIdx h with
        | none => rfl
        | some idx =>
          rcases lastUnpinnedIdx_spec h idx hlu with ⟨it, hg, _⟩
          simp only [hg]
          have hi : idx < h.length := get?_some_lt h idx it hg
          have hlen' : (h.eraseIdx idx).length = m := by
            rw [List.length_eraseIdx_of_lt hi, hlen]
            omega
          rw [ih (h.eraseIdx idx) (remove_item_image it h files)
            (by rw [hlen']; omega), hlen']
      · rfl

/-- C9 witness: a concrete over-budget history, with surplus fuel. -/
theorem c9_witness :
    sizePassFuel 0 1 3 [mkTextItem "a" 0] [] =
      sizePassFuel 0 1 (List.length [mkTextItem "a" 0]) [mkTextItem "a" 0] [] :=
  c9_size_pass_terminates 0 1 3 [mkTextItem "a" 0] [] (by decide)

theorem mem_eraseIdx_of_ne (h : List Item) (idx : Nat) (x it : Item)
    (hg : h.get? idx = some x) (hm : it ∈ h) (hne : it ≠ x) :
    it ∈ h.eraseIdx idx := by
  induction h generalizing idx with
  | nil => simp at hm
  | cons a t ih =>
    cases idx with
    | zero =>
      have hax : a = x := by
        simpa using hg
      subst hax
      rcases List.mem_cons.mp hm with rfl | hm'
      · exact absurd rfl hne
      · simpa [List.eraseIdx] using hm'
    | succ n =>
      have hg' : t.get? n = some x := by simpa using hg
      rcases List.mem_cons.mp hm with rfl | hm'
      · simp [List.eraseIdx]
      · simp only [List.eraseIdx, List.mem_cons]
        exact Or.inr (ih n hg' hm')

theorem agePassAux_pinned (now maxAge : Int) :
    ∀ (i : Nat) (h : List Item) (files : Files) (p : Item),
      p ∈ h → truthy p.pinned = true →
      p ∈ (agePassAux now maxAge i h files).1 := by
  intro i
  induction i with
  | zero =>
    intro h files p hm _
    simpa [agePassAux] using hm
  | succ n ih =>
    intro h files p hm hp
    simp only [agePassAux]
    cases hg : h.get? n with
    | none => exact ih h files p hm hp
    | some it =>
      cases hcond : (!truthy it.pinned && decide (now - it.ts.getD 0 > maxAge)) with
      | false =>
        simp only [hcond, Bool.false_eq_true, if_false]
        exact ih h files p hm hp
      | true =>
        simp only [hcond, if_true]
        have hitp : truthy it.pinned = false := by
          cases hb : truthy it.pinned
          · rfl
          · rw [hb] at hcond
            simp at hcond
        apply ih
        · apply mem_eraseIdx_of_ne h n it p hg hm
          intro heq
          rw [heq, hitp] at hp
          exact Bool.false_ne_true hp
        · exact hp

theorem sizePassFuel_pinned (maxBytes : Int) (dbSize : Nat) :
    ∀ (fuel : Nat) (h : List Item) (files : Files) (p : Item),
      p ∈ h → truthy p.pinned = true →
      p ∈ (sizePassFuel maxBytes dbSize fuel h files).1 := by
  intro fuel
  induction fuel with
  | zero =>
    intro h files p hm _
    simpa [sizePassFuel] using hm
  | succ n ih =>
    intro h files p hm hp
    simp only [sizePassFuel]
    split
    · cases hlu : lastUnpinnedIdx h with
      | none => simpa using hm
      | some idx =>
        rcases lastUnpinnedIdx_spec h idx hlu with ⟨it, hg, hitp⟩
        simp only [hg]
        apply ih
        · apply mem_eraseIdx_of_ne h idx it p hg hm
          intro heq
          rw [heq, hitp] at hp
          exact Bool.false_ne_true hp
        · exact hp
    · simpa using hm

theorem sizePassFuel_all_pinned (maxBytes : Int) (dbSize : Nat)
    (fuel : Nat) (h : List Item) (files : Files)
    (hnone : lastUnpinnedIdx h = none) :
    sizePassFuel maxBytes dbSize fuel h files = (h, files) := by
  cases fuel with
  | zero => rfl
  | succ n =>
    simp only [sizePassFuel, hnone]
    split <;> rfl

/-- C6: the eviction operation never removes a pinned item: every
pinned member of the history survives both the age pass and the size
pass of prune_history regardless of age or size pressure, and when no
unpinned candidate remains the size pass stops, leaving the history and
files as they are even while still over budget. -/
theorem c6_eviction_exemption (now maxAgeDays maxSizeGb : Int) (dbSize : Nat)
    (h : List Item) (files : Files) (p : Item)
    (hm : p ∈ h) (hp : truthy p.pinned = true) :
    p ∈ (prune_history now maxAgeDays maxSizeGb dbSize h files).1 ∧
    (∀ (maxBytes : Int) (fuel : Nat) (h' : List Item) (files' : Files),
      lastUnpinnedIdx h' = none →
      sizePassFuel maxBytes dbSize fuel h' files' = (h', files')) := by
  constructor
  · unfold prune_history sizePass
    apply sizePassFuel_pinned
    · unfold agePass
      exact agePassAux_pinned now (maxAgeDays * 86400) h.length h files p hm hp
    · exact hp
  · intro maxBytes fuel h' files' hnone
    exact sizePassFuel_all_pinned maxBytes dbSize fuel h' files' hnone

/-- C6 witness: a pinned item survives pruning with a zero age limit
and a zero size budget. -/
theorem c6_witness :
    { mkTextItem "a" 0 with pinned := some true } ∈
      (prune_history 1000000 0 0 1 [{ mkTextItem "a" 0 with pinned := some true }]
        []).1 :=
  (c6_eviction_exemption 1000000 0 0 1
    [{ mkTextItem "a" 0 with pinned := some true }] []
    { mkTextItem "a" 0 with pinned := some true } (by decide) rfl).1

-- === C5 helpers ===

theorem removeFirstText_sublist (current : String) (h : List Item) :
    List.Sublist (removeFirstText current h) h := by
  induction h with
  | nil => simp [removeFirstText]
  | cons a t ih =>
    by_cases ha : a.text = some current
    · simp only [removeFirstText, if_pos ha]
      exact List.sublist_cons_self a t
    · simp only [removeFirstText, if_neg ha]
      exact List.Sublist.cons₂ a ih

theorem removeFirstImage_sublist (fname : String) (h : List Item) :
    List.Sublist (removeFirstImage fname h) h := by
  induction h with
  | nil => simp [removeFirstImage]
  | cons a t ih =>
    by_cases ha : matchesImage fname a = true
    · simp only [removeFirstImage, if_pos ha]
      exact List.sublist_cons_self a t
    · simp only [removeFirstImage, if_neg ha]
      exact List.Sublist.cons₂ a ih

theorem dedupInv_sublist (h h' : List Item) (hs : List.Sublist h' h)
    (hinv : dedupInv h) : dedupInv h' :=
  ⟨List.Nodup.sublist (hs.filterMap textKey) hinv.1,
   List.Nodup.sublist (hs.filterMap imageKey) hinv.2⟩

theorem not_mem_removeFirstText (current : String) (h : List Item)
    (hnd : (h.filterMap textKey).Nodup) :
    current ∉ (removeFirstText current h).filterMap textKey := by
  induction h with
  | nil => simp [removeFirstText]
  | cons a t ih =>
    by_cases ha : a.text = some current
    · simp only [removeFirstText, if_pos ha]
      have : (a :: t).filterMap textKey = current :: t.filterMap textKey := by
        simp [List.filterMap_cons, textKey, ha]
      rw [this] at hnd
      exact (List.nodup_cons.mp hnd).1
    · simp only [removeFirstText, if_neg ha]
      cases hta : a.text with
      | none =>
        have heq : (a :: t).filterMap textKey = t.filterMap textKey := by
          simp [List.filterMap_cons, textKey, hta]
        rw [heq] at hnd
        have heq2 : (a :: removeFirstText current t).filterMap textKey =
            (removeFirstText current t).filterMap textKey := by
          simp [List.filterMap_cons, textKey, hta]
        rw [heq2]
        exact ih hnd
      | some s =>
        have hs : s ≠ current := by
          intro hcur
          rw [hcur] at hta
          exact ha hta
        have heq : (a :: t).filterMap textKey = s :: t.filterMap textKey := by
          simp [List.filterMap_cons, textKey, hta]
        rw [heq] at hnd
        have heq2 : (a :: removeFirstText current t).filterMap textKey =
            s :: (removeFirstText current t).filterMap textKey := by
          simp [List.filterMap_cons, textKey, hta]
        rw [heq2]
        simp only [List.mem_cons, not_or]
        exact ⟨fun hc => hs hc.symm, ih (List.nodup_cons.mp hnd).2⟩

theorem imageKey_eq_some_iff (it : Item) (fname : String) :
    imageKey it = some fname ↔ matchesImage fname it = true := by
  unfold imageKey matchesImage
  cases hi : isImage it <;> simp [hi]

theorem not_mem_removeFirstImage (fname : String) (h : List Item)
    (hnd : (h.filterMap imageKey).Nodup) :
    fname ∉ (removeFirstImage fname h).filterMap imageKey := by
  induction h with
  | nil => simp [removeFirstImage]
  | cons a t ih =>
    by_cases ha : matchesImage fname a = true
    · simp only [removeFirstImage, if_pos ha]
      have : (a :: t).filterMap imageKey = fname :: t.filterMap imageKey := by
        have hka : imageKey a = some fname := (imageKey_eq_some_iff a fname).mpr ha
        simp [List.filterMap_cons, hka]
      rw [this] at hnd
      exact (List.nodup_cons.mp hnd).1
    · simp only [removeFirstImage, if_neg ha]
      cases hka : imageKey a with
      | none =>
        have heq : (a :: t).filterMap imageKey = t.filterMap imageKey := by
          simp [List.filterMap_cons, hka]
        rw [heq] at hnd
        have heq2 : (a :: removeFirstImage fname t).filterMap imageKey =
            (removeFirstImage fname t).filterMap imageKey := by
          simp [List.filterMap_cons, hka]
        rw [heq2]
        exact ih hnd
      | some g =>
        have hg : g ≠ fname := by
          intro hcur
          rw [hcur] at hka
          exact ha ((imageKey_eq_some_iff a fname).mp hka)
        have heq : (a :: t).filterMap imageKey = g :: t.filterMap imageKey := by
          simp [List.filterMap_cons, hka]
        rw [heq] at hnd
        have heq2 : (a :: removeFirstImage fname t).filterMap imageKey =
            g :: (removeFirstImage fname t).filterMap imageKey := by
          simp [List.filterMap_cons, hka]
        rw [heq2]
        simp only [List.mem_cons, not_or]
        exact ⟨fun hc => hg hc.symm, ih (List.nodup_cons.mp hnd).2⟩

theorem dedupInv_textUpsert (current : String) (now : Int) (h : List Item)
    (hinv : dedupInv h) : dedupInv (textUpsert current now h) := by
  unfold textUpsert
  cases hf : frontTextMatches current h with
  | true => simpa using hinv
  | false =>
    simp only [Bool.false_eq_true, if_false]
    have hsub := removeFirstText_sublist current h
    have hinv' := dedupInv_sublist h _ hsub hinv
    constructor
    · have heq : (mkTextItem current now :: removeFirstText current h).filterMap
          textKey = current :: (removeFirstText current h).filterMap textKey := by
        simp [List.filterMap_cons, textKey, mkTextItem]
      rw [heq]
      exact List.nodup_cons.mpr
        ⟨not_mem_removeFirstText current h hinv.1, hinv'.1⟩
    · have heq : (mkTextItem current now :: removeFirstText current h).filterMap
          imageKey = (removeFirstText current h).filterMap imageKey := by
        simp [List.filterMap_cons, imageKey, isImage, mkTextItem]
      rw [heq]
      exact hinv'.2

theorem dedupInv_imageUpsert (fname : String) (now w ht : Int) (h : List Item)
    (hinv : dedupInv h) : dedupInv (imageUpsert fname now w ht h) := by
  unfold imageUpsert
  cases hf : frontImageMatches fname h with
  | true => simpa using hinv
  | false =>
    simp only [Bool.false_eq_true, if_false]
    have hsub := removeFirstImage_sublist fname h
    have hinv' := dedupInv_sublist h _ hsub hinv
    constructor
    · have heq : (mkImageItem fname now w ht :: removeFirstImage fname h).filterMap
          textKey = (removeFirstImage fname h).filterMap textKey := by
        simp [List.filterMap_cons, textKey, mkImageItem]
      rw [heq]
      exact hinv'.1
    · have heq : (mkImageItem fname now w ht :: removeFirstImage fname h).filterMap
          imageKey = fname :: (removeFirstImage fname h).filterMap imageKey := by
        simp [List.filterMap_cons, imageKey, isImage, mkImageItem]
      rw [heq]
      exact List.nodup_cons.mpr
        ⟨not_mem_removeFirstImage fname h hinv.2, hinv'.2⟩

theorem filterMap_set_same (f : Item → Option String) (h : List Item) (i : Nat)
    (it it' : Item) (hg : h.get? i = some it) (hk : f it' = f it) :
    (h.set i it').filterMap f = h.filterMap f := by
  induction h generalizing i with
  | nil => simp at hg
  | cons a t ih =>
    cases i with
    | zero =>
      have hae : a = it := by simpa using hg
      subst hae
      rw [List.set_cons_zero, List.filterMap_cons, List.filterMap_cons, hk]
    | succ n =>
      have hg' : t.get? n = some it := by simpa using hg
      rw [List.set_cons_succ, List.filterMap_cons, List.filterMap_cons, ih n hg']

theorem dedupInv_pinToggleAt (i : Nat) (h : List Item)
    (hinv : dedupInv h) : dedupInv (pinToggleAt i h) := by
  unfold pinToggleAt
  cases hg : h.get? i with
  | none => exact hinv
  | some it =>
    constructor
    · rw [filterMap_set_same textKey h i it
        { it with pinned := some (!truthy it.pinned) } hg rfl]
      exact hinv.1
    · rw [filterMap_set_same imageKey h i it
        { it with pinned := some (!truthy it.pinned) } hg rfl]
      exact hinv.2

theorem agePassAux_sublist (now maxAge : Int) :
    ∀ (i : Nat) (h : List Item) (files : Files),
      List.Sublist (agePassAux now maxAge i h files).1 h := by
  intro i
  induction i with
  | zero =>
    intro h files
    exact List.Sublist.refl h
  | succ n ih =>
    intro h files
    simp only [agePassAux]
    split
    · split
      · exact (ih _ _).trans (List.eraseIdx_sublist _ _)
      · exact ih h files
    · exact ih h files

theorem sizePassFuel_sublist (maxBytes : Int) (dbSize : Nat) :
    ∀ (fuel : Nat) (h : List Item) (files : Files),
      List.Sublist (sizePassFuel maxBytes dbSize fuel h files).1 h := by
  intro fuel
  induction fuel with
  | zero =>
    intro h files
    exact List.Sublist.refl h
  | succ n ih =>
    intro h files
    simp only [sizePassFuel]
    split
    · split
      · exact List.Sublist.refl h
      · split
        · exact (ih _ _).trans (List.eraseIdx_sublist _ _)
        · exact List.Sublist.refl h
    · exact List.Sublist.refl h

theorem prune_history_sublist (now maxAgeDays maxSizeGb : Int) (dbSize : Nat)
    (h : List Item) (files : Files) :
    List.Sublist (prune_history now maxAgeDays maxSizeGb dbSize h files).1 h := by
  unfold prune_history sizePass agePass
  exact (sizePassFuel_sublist _ _ _ _ _).trans (agePassAux_sublist _ _ _ _ _)

/-- C5: starting from a history without duplicate text keys or image
filenames, every operation of the program preserves that invariant: the
watcher upserts (text and image), the popup delete, pin toggle and
clear-all, every HTTP command, and the eviction operation. -/
theorem c5_dedup_invariant (h : List Item) (hinv : dedupInv h) :
    (∀ current now, dedupInv (textUpsert current now h)) ∧
    (∀ fname now w ht, dedupInv (imageUpsert fname now w ht h)) ∧
    (∀ idx, dedupInv (_do_delete idx h)) ∧
    (∀ idx, dedupInv (_do_pin idx h)) ∧
    dedupInv (_do_clear_all h) ∧
    (∀ req st, st.history = h → dedupInv ((do_POST req st).1.history)) ∧
    (∀ now maxAgeDays maxSizeGb dbSize files,
      dedupInv ((prune_history now maxAgeDays maxSizeGb dbSize h files).1)) := by
  refine ⟨?_, ?_, ?_, ?_, ?_, ?_, ?_⟩
  · intro current now
    exact dedupInv_textUpsert current now h hinv
  · intro fname now w ht
    exact dedupInv_imageUpsert fname now w ht h hinv
  · intro idx
    unfold _do_delete
    split
    · exact dedupInv_sublist h _ (List.eraseIdx_sublist _ _) hinv
    · exact hinv
  · intro idx
    unfold _do_pin
    split
    · exact dedupInv_pinToggleAt _ h hinv
    · exact hinv
  · exact dedupInv_sublist h _ (List.filter_sublist h) hinv
  · intro req st hst
    subst hst
    unfold do_POST
    split_ifs
    · exact hinv
    · split
      · exact dedupInv_sublist _ _ (List.eraseIdx_sublist _ _) hinv
      · exact hinv
    · exact dedupInv_sublist _ _ (List.filter_sublist _) hinv
    · split
      · exact dedupInv_pinToggleAt _ _ hinv
      · exact hinv
    · exact hinv
  · intro now maxAgeDays maxSizeGb dbSize files
    exact dedupInv_sublist h _
      (prune_history_sublist now maxAgeDays maxSizeGb dbSize h files) hinv

/-- C5 witness: the invariant instantiated on a concrete two-item
history and a concrete text upsert. -/
theorem c5_witness :
    dedupInv (textUpsert "hello" 9 [mkTextItem "x" 1, mkTextItem "hello" 0]) :=
  (c5_dedup_invariant [mkTextItem "x" 1, mkTextItem "hello" 0]
    ⟨by decide, by decide⟩).1
    "hello" 9

-- === C3 helpers ===

theorem wf_append_middle (A B : List Item) (it : Item)
    (wf : wfItems (A ++ it :: B)) : wfItems (A ++ B) := by
  intro x hx
  apply wf
  rcases List.mem_append.mp hx with hxa | hxb
  · exact List.mem_append.mpr (Or.inl hxa)
  · exact List.mem_append.mpr (Or.inr (List.mem_cons_of_mem it hxb))

theorem mem_append_middle (A B : List Item) (it x : Item)
    (hx : x ∈ A ++ B) : x ∈ A ++ it :: B := by
  rcases List.mem_append.mp hx with hxa | hxb
  · exact List.mem_append.mpr (Or.inl hxa)
  · exact List.mem_append.mpr (Or.inr (List.mem_cons_of_mem it hxb))

theorem refCount_append (A B : List Item) (fname : String) :
    refCount (A ++ B) fname = refCount A fname + refCount B fname := by
  unfold refCount
  rw [List.countP_append]

theorem refCount_middle_pos (A B : List Item) (it : Item) (fname : String)
    (hit : it.image = some fname) :
    refCount (A ++ it :: B) fname =
      refCount A fname + refCount B fname + 1 := by
  unfold refCount
  rw [List.countP_append, List.countP_cons]
  simp [hit]
  omega

theorem exists_ref_of_refCount_pos (L : List Item) (fname : String)
    (hpos : 0 < refCount L fname) : ∃ x ∈ L, x.image = some fname := by
  unfold refCount at hpos
  rcases List.countP_pos_iff.mp hpos with ⟨x, hx, hp⟩
  exact ⟨x, hx, by simpa using hp⟩

theorem refCount_pos_of_mem (L : List Item) (x : Item) (fname : String)
    (hx : x ∈ L) (hp : x.image = some fname) : 0 < refCount L fname := by
  unfold refCount
  exact List.countP_pos_iff.mpr ⟨x, hx, by simpa using hp⟩

theorem blob_step (A B : List Item) (it : Item) (files : Files)
    (wf : wfItems (A ++ it :: B)) (inv : blobInv (A ++ it :: B) files) :
    wfItems (A ++ B) ∧
    blobInv (A ++ B) (remove_item_image it (A ++ it :: B) files) := by
  refine ⟨wf_append_middle A B it wf, ?_⟩
  unfold remove_item_image
  cases hii : isImage it with
  | false =>
    simp only [Bool.false_eq_true, if_false]
    constructor
    · intro f hf
      rcases inv.1 f hf with ⟨x, hx, hxi⟩
      rcases List.mem_append.mp hx with hxa | hxc
      · exact ⟨x, List.mem_append.mpr (Or.inl hxa), hxi⟩
      · rcases List.mem_cons.mp hxc with rfl | hxb
        · exfalso
          have hwf : isImage x = true := (wf x (by simp)).mpr (by simp [hxi])
          rw [hii] at hwf
          exact Bool.false_ne_true hwf
        · exact ⟨x, List.mem_append.mpr (Or.inr hxb), hxi⟩
    · intro x hx hxs
      exact inv.2 x (mem_append_middle A B it x hx) hxs
  | true =>
    simp only [if_true]
    have hsome : it.image.isSome = true := (wf it (by simp)).mp hii
    rcases Option.isSome_iff_exists.mp hsome with ⟨fname, hfn⟩
    have hgd : it.image.getD "" = fname := by rw [hfn]; rfl
    rw [hgd]
    by_cases hle : refCount (A ++ it :: B) fname ≤ 1
    · rw [if_pos hle]
      have hcnt := refCount_middle_pos A B it fname hfn
      have hA0 : refCount A fname = 0 := by omega
      have hB0 : refCount B fname = 0 := by omega
      constructor
      · intro f hf
        have hfmem := List.mem_filter.mp hf
        have hfne : f.1 ≠ fname := by simpa using hfmem.2
        rcases inv.1 f hfmem.1 with ⟨x, hx, hxi⟩
        rcases List.mem_append.mp hx with hxa | hxc
        · exact ⟨x, List.mem_append.mpr (Or.inl hxa), hxi⟩
        · rcases List.mem_cons.mp hxc with rfl | hxb
          · exfalso
            rw [hfn] at hxi
            injection hxi with he
            exact hfne he.symm
          · exact ⟨x, List.mem_append.mpr (Or.inr hxb), hxi⟩
      · intro x hx hxs
        rcases Option.isSome_iff_exists.mp hxs with ⟨g, hg⟩
        have hgne : g ≠ fname := by
          intro heq
          subst heq
          rcases List.mem_append.mp hx with hxa | hxb
          · have := refCount_pos_of_mem A x g hxa hg
            omega
          · have := refCount_pos_of_mem B x g hxb hg
            omega
        rcases inv.2 x (mem_append_middle A B it x hx) hxs with ⟨f, hf, hfi⟩
        have hf1 : f.1 = g := by
          rw [hg] at hfi
          injection hfi with he
          exact he.symm
        refine ⟨f, List.mem_filter.mpr ⟨hf, ?_⟩, hfi⟩
        simp [hf1, hgne]
    · rw [if_neg hle]
      constructor
      · intro f hf
        rcases inv.1 f hf with ⟨x, hx, hxi⟩
        rcases List.mem_append.mp hx with hxa | hxc
        · exact ⟨x, List.mem_append.mpr (Or.inl hxa), hxi⟩
        · rcases List.mem_cons.mp hxc with rfl | hxb
          · have hcnt := refCount_middle_pos A B x fname hfn
            have hpos : 0 < refCount (A ++ B) fname := by
              rw [refCount_append]
              omega
            rcases exists_ref_of_refCount_pos (A ++ B) fname hpos with ⟨y, hy, hyi⟩
            have hfq : fname = f.1 := by
              rw [hfn] at hxi
              injection hxi with he
            refine ⟨y, hy, ?_⟩
            rw [← hfq]
            exact hyi
          · exact ⟨x, List.mem_append.mpr (Or.inr hxb), hxi⟩
      · intro x hx hxs
        exact inv.2 x (mem_append_middle A B it x hx) hxs

theorem get?_decomp (h : List Item) (idx : Nat) (it : Item)
    (hg : h.get? idx = some it) :
    h = h.take idx ++ it :: h.drop (idx + 1) ∧
    h.eraseIdx idx = h.take idx ++ h.drop (idx + 1) := by
  rcases List.get?_eq_some.mp hg with ⟨hlt, hget⟩
  constructor
  · conv_lhs => rw [← List.take_append_drop idx h]
    congr 1
    rw [List.drop_eq_get_cons hlt, hget]
  · exact List.eraseIdx_eq_take_drop_succ h idx

theorem blob_step_idx (h : List Item) (idx : Nat) (it : Item) (files : Files)
    (hg : h.get? idx = some it) (wf : wfItems h) (inv : blobInv h files) :
    wfItems (h.eraseIdx idx) ∧
    blobInv (h.eraseIdx idx) (remove_item_image it h files) := by
  obtain ⟨hdec, herase⟩ := get?_decomp h idx it hg
  rw [herase]
  rw [hdec] at wf inv
  have hrw : remove_item_image it h files =
      remove_item_image it (h.take idx ++ it :: h.drop (idx + 1)) files := by
    rw [← hdec]
  rw [hrw]
  exact blob_step (h.take idx) (h.drop (idx + 1)) it files wf inv

theorem agePassAux_blob (now maxAge : Int) :
    ∀ (i : Nat) (h : List Item) (files : Files),
      wfItems h → blobInv h files →
      wfItems (agePassAux now maxAge i h files).1 ∧
      blobInv (agePassAux now maxAge i h files).1
        (agePassAux now maxAge i h files).2 := by
  intro i
  induction i with
  | zero =>
    intro h files wf inv
    exact ⟨wf, inv⟩
  | succ n ih =>
    intro h files wf inv
    simp only [agePassAux]
    cases hg : h.get? n with
    | none => exact ih h files wf inv
    | some it =>
      cases hcond : (!truthy it.pinned && decide (now - it.ts.getD 0 > maxAge)) with
      | false =>
        simp only [hcond, Bool.false_eq_true, if_false]
        exact ih h files wf inv
      | true =>
        simp only [hcond, if_true]
        have hstep := blob_step_idx h n it files hg wf inv
        exact ih _ _ hstep.1 hstep.2

theorem sizePassFuel_blob (maxBytes : Int) (dbSize : Nat) :
    ∀ (fuel : Nat) (h : List Item) (files : Files),
      wfItems h → blobInv h files →
      wfItems (sizePassFuel maxBytes dbSize fuel h files).1 ∧
      blobInv (sizePassFuel maxBytes dbSize fuel h files).1
        (sizePassFuel maxBytes dbSize fuel h files).2 := by
  intro fuel
  induction fuel with
  | zero =>
    intro h files wf inv
    exact ⟨wf, inv⟩
  | succ n ih =>
    intro h files wf inv
    simp only [sizePassFuel]
    split
    · cases hlu : lastUnpinnedIdx h with
      | none => exact ⟨wf, inv⟩
      | some idx =>
        dsimp only
        cases hg : h.get? idx with
        | none => exact ⟨wf, inv⟩
        | some it =>
          have hstep := blob_step_idx h idx it files hg wf inv
          exact ih _ _ hstep.1 hstep.2
    · exact ⟨wf, inv⟩

theorem do_POST_files (req : Request) (st : ServerState) :
    (do_POST req st).1.files = st.files := by
  unfold do_POST
  split_ifs
  · rfl
  · cases validIdx req.index st.history.length <;> rfl
  · rfl
  · cases validIdx req.index st.history.length <;> rfl
  · rfl

-- === C3 claim ===

/-- C3 counterexample: deleting by index the only history item that
references the blob abc leaves the blob file on disk, so after the
delete the file has zero referencing items and the retained-exactly-
while-referenced property is broken; the delete route never asks the
blob store to drop the reference. -/
theorem c3_counterexample :
    (do_POST { path := "/api/delete", index := some (JIdx.int 0), text := none }
      { history := [mkImageItem "abc" 0 4 4], files := [( "abc", 5)],
        clip := Clipboard.ctext "" }).1 =
      { history := [], files := [( "abc", 5)], clip := Clipboard.ctext "" } ∧
    ¬ blobInv [] [( "abc", 5)] := by
  constructor
  · rfl
  · intro hinv
    rcases hinv.1 ( "abc", 5) (by simp) with ⟨it, hmem, _⟩
    simp at hmem

/-- C3 (amended): only the eviction operation maintains the blob
reference discipline: starting from a well-formed history whose blob
files are exactly the referenced ones, prune_history preserves that
correspondence (every removal calls remove_item_image, which deletes
the file exactly when the removed item was the last referencing entry);
the HTTP delete, delete-all and pin commands never touch the image
directory at all, so deleting an image item through them leaves its
blob file orphaned on disk. -/
theorem c3_blob_invariant (now maxAgeDays maxSizeGb : Int) (dbSize : Nat)
    (h : List Item) (files : Files)
    (wf : wfItems h) (inv : blobInv h files) :
    blobInv (prune_history now maxAgeDays maxSizeGb dbSize h files).1
      (prune_history now maxAgeDays maxSizeGb dbSize h files).2 ∧
    (∀ req st, (do_POST req st).1.files = st.files) := by
  constructor
  · unfold prune_history sizePass agePass
    have hage := agePassAux_blob now (maxAgeDays * 86400) h.length h files wf inv
    exact (sizePassFuel_blob (maxSizeGb * 1024 ^ 3) dbSize _ _ _ hage.1 hage.2).2
  · intro req st
    exact do_POST_files req st

/-- C3 witness: pruning a one-image history with a zero age limit
deletes both the item and its blob, and the invariant holds after. -/
theorem c3_witness :
    blobInv (prune_history 100 0 10 1 [mkImageItem "abc" 0 4 4] [( "abc", 5)]).1
      (prune_history 100 0 10 1 [mkImageItem "abc" 0 4 4] [( "abc", 5)]).2 :=
  (c3_blob_invariant 100 0 10 1 [mkImageItem "abc" 0 4 4] [( "abc", 5)]
    (by intro it hit; simp at hit; simp [hit, isImage, mkImageItem])
    ⟨by decide, by decide⟩).1
